import Mathlib

/-!
# Verification of the Thrill k-means example (`examples/k-means/k-means.hpp`)

A shallow embedding of the k-means implementation.  `double` values are
modelled as exact rationals `ℚ`; mutable loop state is made explicit; code
whose execution can fail (out-of-bounds vector access, a failing `assert`)
returns `Option`.  The distributed primitives (`Cache`, `Sample`, `Map`,
`ReduceByKey`, `AllGather`, `Sum`) live outside the embedded source file and
are modelled from their contracts: `Map` over a distributed collection is a
list `map`, `ReduceByKey` groups by key and merges with the combine function,
`Sample`'s random output is a parameter, `AllGather`/`Sum` are the identity
on the gathered list and a list sum.
-/

namespace KMeansVerify

/-- A D-dimensional point (`thrill::common::Vector<D, double>` or `VVector`),
modelled as a list of rationals. -/
abbrev Point := List ℚ

/-- Modelled from the spec: `Vector::DistanceSquare` (from
`thrill/common/vector.hpp`, outside the embedded file) is the squared
Euclidean distance: the sum of squared componentwise differences. -/
def distanceSquare (p q : Point) : ℚ :=
  (List.zipWith (fun a b => (a - b) * (a - b)) p q).sum

/-- Modelled from the spec: componentwise point addition (`Vector::operator+`). -/
def pointAdd (p q : Point) : Point :=
  List.zipWith (· + ·) p q

/-- Modelled from the spec: componentwise division of a point by a scalar
(`Vector::operator/`). -/
def pointDiv (p : Point) (c : ℚ) : Point :=
  p.map (· / c)

/-- `CentroidAccumulated`: a point which contains `count` accumulated vectors. -/
structure CentroidAccumulated where
  p : Point
  count : Nat
  deriving DecidableEq, Repr

/-- `ClosestCentroid`: assignment of a point to a cluster. -/
structure ClosestCentroid where
  cluster_id : Nat
  center : CentroidAccumulated
  deriving DecidableEq, Repr

/-- The scan loop shared by `KMeansModel::Classify` (k-means.hpp:100-111) and
the assignment lambda in `KMeans` (k-means.hpp:190-206): the mutable state
`(min_dist, closest_id, i)` is passed explicitly, one recursive call per
loop iteration over the remaining centroids. -/
def classifyGo (p : Point) : ℚ → Nat → Nat → List Point → ℚ × Nat
  | minDist, closest, _, [] => (minDist, closest)
  | minDist, closest, i, c :: rest =>
    let dist := distanceSquare p c
    if dist < minDist then classifyGo p dist i (i + 1) rest
    else classifyGo p minDist closest (i + 1) rest

/-- The classification scan on a nonempty centroid list `c0 :: rest`:
`min_dist` is initialised from `centroids[0]`, `closest_id` from `0`, and
the loop starts at index `1`. -/
def classifyFrom (p c0 : Point) (rest : List Point) : Nat :=
  (classifyGo p (distanceSquare p c0) 0 1 rest).2

/-- `KMeansModel::Classify` (k-means.hpp:100-111).  The initial read
`centroids_[0]` is an out-of-bounds vector access when the centroid list is
empty; that fallible access is embedded as `none`. -/
def classify (p : Point) (cs : List Point) : Option Nat :=
  match cs with
  | [] => none
  | c0 :: rest => some (classifyFrom p c0 rest)

/-- The scan loop of `KMeansModel::ComputeCost` (k-means.hpp:132-141): same
loop as `classifyGo` but tracking only `min_dist`. -/
def computeCostGo (p : Point) : ℚ → List Point → ℚ
  | minDist, [] => minDist
  | minDist, c :: rest =>
    let dist := distanceSquare p c
    if dist < minDist then computeCostGo p dist rest
    else computeCostGo p minDist rest

/-- The cost scan on a nonempty centroid list `c0 :: rest`. -/
def computeCostFrom (p c0 : Point) (rest : List Point) : ℚ :=
  computeCostGo p (distanceSquare p c0) rest

/-- `KMeansModel::ComputeCost` for a single point (k-means.hpp:132-141); the
out-of-bounds `centroids_[0]` read on an empty centroid list is `none`. -/
def computeCost (p : Point) (cs : List Point) : Option ℚ :=
  match cs with
  | [] => none
  | c0 :: rest => some (computeCostFrom p c0 rest)

/-- `KMeansModel::ComputeCost` over a point collection (k-means.hpp:145-150):
`points.Map(ComputeCost).Sum()`.  Each per-point call can fail on an empty
centroid list, so the whole computation is sequenced through `Option`. -/
def computeCostTotal (pts cs : List Point) : Option ℚ :=
  (pts.mapM fun p => computeCost p cs).map List.sum

/-- The per-point assignment lambda of `KMeans` (k-means.hpp:190-206): the
same scan as `Classify` (re-implemented inline in the source) wrapping the
result into `ClosestCentroid { closest_id, CentroidAccumulated { p, 1 } }`. -/
def assignPoint (c0 : Point) (rest : List Point) (p : Point) : ClosestCentroid :=
  { cluster_id := classifyFrom p c0 rest
    center := { p := p, count := 1 } }

/-- The assignment step: `points.Keep().Map(lambda)` applied to the cached
input points, given a nonempty centroid list `c0 :: rest`. -/
def assign (c0 : Point) (rest : List Point) (pts : List Point) : List ClosestCentroid :=
  pts.map (assignPoint c0 rest)

/-- The `ReduceByKey` combine lambda (k-means.hpp:213-219): sum the
accumulated points and add the counts, keeping the left `cluster_id`. -/
def combine (a b : ClosestCentroid) : ClosestCentroid :=
  { cluster_id := a.cluster_id
    center := { p := pointAdd a.center.p b.center.p
                count := a.center.count + b.center.count } }

/-- Modelled from the spec: `ReduceByKey` (`thrill/api/reduce_by_key.hpp`,
outside the embedded file) groups the records by their key
(`cc.cluster_id`), merges each group with the combine function, and emits
one record per distinct key; per the spec's "centroids: ordered sequence of
Point indexed by cluster_id", the output is in ascending cluster-id order. -/
def reduceByKey (l : List ClosestCentroid) : List ClosestCentroid :=
  ((l.map fun cc => cc.cluster_id).toFinset.sort (· ≤ ·)).filterMap fun k =>
    match l.filter fun cc => cc.cluster_id == k with
    | [] => none
    | r :: rs => some (rs.foldl combine r)

/-- The mean-extraction Map after the reduction (k-means.hpp:220-222):
`cc.center.p / (double)cc.center.count`. -/
def extractMean (cc : ClosestCentroid) : Point :=
  pointDiv cc.center.p (cc.center.count : ℚ)

/-- One iteration of the main loop body (k-means.hpp:182-224): `AllGather`
the current centroids — the lambda's `assert(local_centroids.size())` makes
an empty centroid list a failure — assign every cached input point, reduce
by cluster id, and map the accumulators to their means. -/
def step (pts cs : List Point) : Option (List Point) :=
  match cs with
  | [] => none
  | c0 :: rest => some ((reduceByKey (assign c0 rest pts)).map extractMean)

/-- The iteration loop `for (iter = 0; iter < iterations; ++iter)`
(k-means.hpp:182-224), by recursion on the remaining iteration count. -/
def kmeansLoop (pts : List Point) : Nat → List Point → Option (List Point)
  | 0, cs => some cs
  | n + 1, cs => (step pts cs).bind (kmeansLoop pts n)

/-- `KMeansModel` (k-means.hpp:69-166): the immutable result record. -/
structure KMeansModel where
  dimensions : Nat
  num_clusters : Nat
  iterations : Nat
  centroids : List Point
  deriving DecidableEq, Repr

/-- `KMeansModel::Classify` as a model method: classifies against the stored
centroids. -/
def KMeansModel.classifyM (m : KMeansModel) (p : Point) : Option Nat :=
  classify p m.centroids

/-- `KMeansModel::ClassifyPairs` (k-means.hpp:123-129): pairs every point
with its cluster id. -/
def KMeansModel.classifyPairsM (m : KMeansModel) (pts : List Point) :
    Option (List (Point × Nat)) :=
  pts.mapM fun p => (classify p m.centroids).map fun i => (p, i)

/-- `KMeansModel::ComputeCost` as model methods. -/
def KMeansModel.computeCostM (m : KMeansModel) (p : Point) : Option ℚ :=
  computeCost p m.centroids

/-- `KMeansModel::ComputeCost` over a collection, as a model method. -/
def KMeansModel.computeCostTotalM (m : KMeansModel) (pts : List Point) : Option ℚ :=
  computeCostTotal pts m.centroids

/-- `KMeans` (k-means.hpp:171-229).  Modelled from the spec:
`points.Keep().Sample(num_clusters)` draws a uniformly random sample of
`num_clusters` cached input points (`thrill/api/sample.hpp`, outside the
embedded file), so the initial centroid list is the parameter `sample`. -/
def kMeans (pts : List Point) (dimensions num_clusters iterations : Nat)
    (sample : List Point) : Option KMeansModel :=
  (kmeansLoop pts iterations sample).map fun cs =>
    { dimensions := dimensions, num_clusters := num_clusters,
      iterations := iterations, centroids := cs }

/-- Spec-side definition, for comparison with the code: the arithmetic mean
of a nonempty list of points, "component-wise point_sum / count". -/
def specMean : List Point → Point
  | [] => []
  | q :: qs => pointDiv (qs.foldl pointAdd q) ((qs.length + 1 : Nat) : ℚ)

/-! ## Helper lemmas -/

theorem pointAdd_right_comm : ∀ x y z : Point,
    pointAdd (pointAdd x y) z = pointAdd (pointAdd x z) y := by
  intro x
  induction x with
  | nil => intro y z; rfl
  | cons a x ih =>
    intro y z
    cases y with
    | nil => cases z <;> rfl
    | cons b y =>
      cases z with
      | nil => rfl
      | cons c z =>
        simp only [pointAdd, List.zipWith] at ih ⊢
        refine congrArg₂ _ (by ring) ?_
        exact ih y z

theorem pointAdd_assoc : ∀ x y z : Point,
    pointAdd (pointAdd x y) z = pointAdd x (pointAdd y z) := by
  intro x
  induction x with
  | nil => intro y z; rfl
  | cons a x ih =>
    intro y z
    cases y with
    | nil => cases z <;> rfl
    | cons b y =>
      cases z with
      | nil => rfl
      | cons c z =>
        simp only [pointAdd, List.zipWith] at ih ⊢
        refine congrArg₂ _ (by ring) ?_
        exact ih y z

theorem pointAdd_comm : ∀ x y : Point, pointAdd x y = pointAdd y x := by
  intro x
  induction x with
  | nil => intro y; cases y <;> rfl
  | cons a x ih =>
    intro y
    cases y with
    | nil => rfl
    | cons b y =>
      simp only [pointAdd, List.zipWith] at ih ⊢
      refine congrArg₂ _ (by ring) ?_
      exact ih y

theorem combine_right_comm (a b c : ClosestCentroid) :
    combine (combine a b) c = combine (combine a c) b := by
  have h1 := pointAdd_right_comm a.center.p b.center.p c.center.p
  simp [combine, h1, Nat.add_right_comm]

/-- First components agree: the `Classify` scan tracks the same `min_dist`
as the `ComputeCost` scan. -/
theorem classifyGo_fst (p : Point) : ∀ (rest : List Point) (d : ℚ) (j i : Nat),
    (classifyGo p d j i rest).1 = computeCostGo p d rest := by
  intro rest
  induction rest with
  | nil => intros; rfl
  | cons c rest ih =>
    intro d j i
    simp only [classifyGo, computeCostGo]
    by_cases h : distanceSquare p c < d
    · rw [if_pos h, if_pos h]; exact ih _ _ _
    · rw [if_neg h, if_neg h]; exact ih _ _ _

/-- Loop invariant of the classification scan: if on entry `d` is the
distance to the element at index `j` of the already-scanned prefix `front`,
`d` is minimal over `front`, and `j` is the least index attaining it, then
on exit the same holds over `front ++ rest`. -/
theorem classifyGo_correct (p : Point) :
    ∀ (rest front : List Point) (d : ℚ) (j : Nat),
      j < front.length →
      d = distanceSquare p (front.getD j []) →
      (∀ k, k < front.length → d ≤ distanceSquare p (front.getD k [])) →
      (∀ k, k < j → d < distanceSquare p (front.getD k [])) →
      (classifyGo p d j front.length rest).2 < (front ++ rest).length ∧
      (classifyGo p d j front.length rest).1 =
        distanceSquare p ((front ++ rest).getD (classifyGo p d j front.length rest).2 []) ∧
      (∀ k, k < (front ++ rest).length →
        (classifyGo p d j front.length rest).1 ≤
          distanceSquare p ((front ++ rest).getD k [])) ∧
      (∀ k, k < (classifyGo p d j front.length rest).2 →
        (classifyGo p d j front.length rest).1 <
          distanceSquare p ((front ++ rest).getD k [])) := by
  intro rest
  induction rest with
  | nil =>
    intro front d j hj hd hle hlt
    simpa only [classifyGo, List.append_nil] using ⟨hj, hd, hle, hlt⟩
  | cons c rest ih =>
    intro front d j hj hd hle hlt
    have happ : front ++ c :: rest = (front ++ [c]) ++ rest := by simp
    have hlen : front.length + 1 = (front ++ [c]).length := by simp
    have hgetc : (front ++ [c]).getD front.length [] = c := by
      rw [List.getD_append_right _ _ _ _ (le_refl _), Nat.sub_self]; rfl
    have hgetf : ∀ k, k < front.length →
        (front ++ [c]).getD k [] = front.getD k [] := fun k hk =>
      List.getD_append _ _ _ _ hk
    simp only [classifyGo]
    rw [happ]
    by_cases hcd : distanceSquare p c < d
    · rw [if_pos hcd, hlen]
      refine ih (front ++ [c]) (distanceSquare p c) front.length ?_ ?_ ?_ ?_
      · simp
      · rw [hgetc]
      · intro k hk
        rcases Nat.lt_succ_iff_lt_or_eq.mp (by simpa using hk) with hk' | hk'
        · rw [hgetf k hk']
          exact le_of_lt (lt_of_lt_of_le hcd (hle k hk'))
        · subst hk'; rw [hgetc]
      · intro k hk
        rw [hgetf k hk]
        exact lt_of_lt_of_le hcd (hle k hk)
    · rw [if_neg hcd, hlen]
      refine ih (front ++ [c]) d j ?_ ?_ ?_ ?_
      · simp; omega
      · rw [hgetf j hj]; exact hd
      · intro k hk
        rcases Nat.lt_succ_iff_lt_or_eq.mp (by simpa using hk) with hk' | hk'
        · rw [hgetf k hk']; exact hle k hk'
        · subst hk'; rw [hgetc]; exact le_of_not_lt hcd
      · intro k hk
        rw [hgetf k (hk.trans hj)]
        exact hlt k hk

/-- The classification scan on `c0 :: rest` returns the least index of a
minimal-distance centroid. -/
theorem classifyFrom_spec (p c0 : Point) (rest : List Point) :
    classifyFrom p c0 rest < (c0 :: rest).length ∧
    computeCostFrom p c0 rest =
      distanceSquare p ((c0 :: rest).getD (classifyFrom p c0 rest) []) ∧
    (∀ k, k < (c0 :: rest).length →
      computeCostFrom p c0 rest ≤ distanceSquare p ((c0 :: rest).getD k [])) ∧
    (∀ k, k < classifyFrom p c0 rest →
      computeCostFrom p c0 rest < distanceSquare p ((c0 :: rest).getD k [])) := by
  have h := classifyGo_correct p rest [c0] (distanceSquare p c0) 0
    (by simp) rfl
    (by
      intro k hk
      have hk0 : k = 0 := by simpa using hk
      subst hk0; simp)
    (by intro k hk; omega)
  have hfst : (classifyGo p (distanceSquare p c0) 0 1 rest).1 =
      computeCostFrom p c0 rest := classifyGo_fst p rest _ 0 1
  simpa only [List.singleton_append, List.length_singleton, classifyFrom, hfst] using h

/-- A left fold of `combine` keeps the seed's cluster id. -/
theorem foldl_combine_cluster_id (l : List ClosestCentroid) (r : ClosestCentroid) :
    (l.foldl combine r).cluster_id = r.cluster_id := by
  induction l generalizing r with
  | nil => rfl
  | cons a l ih => rw [List.foldl_cons, ih]; rfl

/-- A left fold of `combine` adds up the counts. -/
theorem foldl_combine_count (l : List ClosestCentroid) (r : ClosestCentroid) :
    (l.foldl combine r).center.count =
      r.center.count + (l.map fun cc => cc.center.count).sum := by
  induction l generalizing r with
  | nil => simp
  | cons a l ih =>
    rw [List.foldl_cons, ih]
    simp [combine]
    omega

/-- A left fold of `combine` adds up the accumulated points. -/
theorem foldl_combine_point (l : List ClosestCentroid) (r : ClosestCentroid) :
    (l.foldl combine r).center.p =
      l.foldl (fun acc cc => pointAdd acc cc.center.p) r.center.p := by
  induction l generalizing r with
  | nil => rfl
  | cons a l ih => rw [List.foldl_cons, List.foldl_cons, ih]; rfl

/-- Every output of `reduceByKey` is the merge of one nonempty filtered
group of the input. -/
theorem reduceByKey_mem_elim {l : List ClosestCentroid} {cc : ClosestCentroid}
    (h : cc ∈ reduceByKey l) :
    ∃ (k : Nat) (r : ClosestCentroid) (rs : List ClosestCentroid),
      (l.filter fun x => x.cluster_id == k) = r :: rs ∧
      cc = rs.foldl combine r ∧ r.cluster_id = k ∧ cc.cluster_id = k := by
  unfold reduceByKey at h
  obtain ⟨k, _, hsome⟩ := List.mem_filterMap.mp h
  cases hfil : l.filter fun x => x.cluster_id == k with
  | nil => rw [hfil] at hsome; cases hsome
  | cons r rs =>
    rw [hfil] at hsome
    have hcc : cc = rs.foldl combine r := (Option.some.inj hsome).symm
    have hr : r.cluster_id = k := by
      have hrmem : r ∈ l.filter fun x => x.cluster_id == k := by
        rw [hfil]; exact List.mem_cons_self r rs
      simpa using (List.mem_filter.mp hrmem).2
    exact ⟨k, r, rs, hfil, hcc, hr, by rw [hcc, foldl_combine_cluster_id, hr]⟩

/-- Every cluster id occurring in the input produces an output of
`reduceByKey` with that id. -/
theorem reduceByKey_mem_intro {l : List ClosestCentroid} {k : Nat}
    (h : k ∈ l.map fun cc => cc.cluster_id) :
    ∃ cc ∈ reduceByKey l, cc.cluster_id = k := by
  cases hfil : l.filter fun x => x.cluster_id == k with
  | nil =>
    obtain ⟨x, hx, hxk⟩ := List.mem_map.mp h
    have : x ∈ l.filter fun y => y.cluster_id == k := by
      rw [List.mem_filter]
      exact ⟨hx, by simp [hxk]⟩
    rw [hfil] at this
    cases this
  | cons r rs =>
    refine ⟨rs.foldl combine r, ?_, ?_⟩
    · unfold reduceByKey
      rw [List.mem_filterMap]
      refine ⟨k, ?_, by rw [hfil]⟩
      rw [Finset.mem_sort, List.mem_toFinset]
      exact h
    · rw [foldl_combine_cluster_id]
      have hrmem : r ∈ l.filter fun x => x.cluster_id == k := by
        rw [hfil]; exact List.mem_cons_self r rs
      simpa using (List.mem_filter.mp hrmem).2

/-- A `filterMap` that never drops an element preserves the length. -/
theorem length_filterMap_all_some {α β : Type} :
    ∀ (s : List α) (f : α → Option β),
      (∀ a ∈ s, (f a).isSome) → (s.filterMap f).length = s.length := by
  intro s
  induction s with
  | nil => intro f _; rfl
  | cons a s ih =>
    intro f h
    obtain ⟨b, hb⟩ := Option.isSome_iff_exists.mp (h a (List.mem_cons_self a s))
    rw [List.filterMap_cons, hb, List.length_cons,
      ih f fun x hx => h x (List.mem_cons_of_mem a hx)]
    rfl

/-- `reduceByKey` emits exactly one record per distinct cluster id of its
input. -/
theorem reduceByKey_length (l : List ClosestCentroid) :
    (reduceByKey l).length = (l.map fun cc => cc.cluster_id).toFinset.card := by
  unfold reduceByKey
  rw [length_filterMap_all_some, Finset.length_sort]
  intro k hk
  rw [Finset.mem_sort, List.mem_toFinset] at hk
  obtain ⟨x, hx, hxk⟩ := List.mem_map.mp hk
  have hmem : x ∈ l.filter fun y => y.cluster_id == k := by
    rw [List.mem_filter]
    exact ⟨hx, by simp [hxk]⟩
  cases hfil : l.filter fun y => y.cluster_id == k with
  | nil => rw [hfil] at hmem; cases hmem
  | cons r rs => rfl

/-- Filtering an assignment by cluster id is the assignment of the points
classified to that id. -/
theorem filter_assign (c0 : Point) (rest pts : List Point) (k : Nat) :
    ((assign c0 rest pts).filter fun x => x.cluster_id == k) =
      (pts.filter fun p => classifyFrom p c0 rest == k).map (assignPoint c0 rest) := by
  unfold assign
  rw [List.filter_map]
  rfl

/-- The cluster ids of an assignment are the classifications of the
points. -/
theorem assign_ids (c0 : Point) (rest pts : List Point) :
    ((assign c0 rest pts).map fun cc => cc.cluster_id) =
      pts.map fun p => classifyFrom p c0 rest := by
  unfold assign
  rw [List.map_map]
  rfl

/-- The number of distinct assigned cluster ids is at most the number of
centroids. -/
theorem assign_ids_card_le (c0 : Point) (rest pts : List Point) :
    (pts.map fun p => classifyFrom p c0 rest).toFinset.card ≤ (c0 :: rest).length := by
  have hsub : (pts.map fun p => classifyFrom p c0 rest).toFinset ⊆
      Finset.range (c0 :: rest).length := by
    intro k hk
    rw [List.mem_toFinset] at hk
    obtain ⟨p, _, hpk⟩ := List.mem_map.mp hk
    rw [Finset.mem_range, ← hpk]
    exact (classifyFrom_spec p c0 rest).1
  calc (pts.map fun p => classifyFrom p c0 rest).toFinset.card
      ≤ (Finset.range (c0 :: rest).length).card := Finset.card_le_card hsub
    _ = (c0 :: rest).length := Finset.card_range _

/-- One step never increases the number of centroids. -/
theorem step_length_le {pts cs cs₁ : List Point} (h : step pts cs = some cs₁) :
    cs₁.length ≤ cs.length := by
  cases cs with
  | nil => cases h
  | cons c0 rest =>
    have hcs₁ : cs₁ = (reduceByKey (assign c0 rest pts)).map extractMean :=
      (Option.some.inj h).symm
    rw [hcs₁, List.length_map, reduceByKey_length, assign_ids]
    exact assign_ids_card_le c0 rest pts

/-- One step on nonempty points and centroids succeeds with a nonempty
centroid list. -/
theorem step_nonempty {pts cs : List Point} (hpts : pts ≠ []) (hcs : cs ≠ []) :
    ∃ cs₁, step pts cs = some cs₁ ∧ cs₁ ≠ [] := by
  cases cs with
  | nil => exact absurd rfl hcs
  | cons c0 rest =>
    refine ⟨(reduceByKey (assign c0 rest pts)).map extractMean, rfl, ?_⟩
    rw [← List.length_pos, List.length_map, reduceByKey_length, assign_ids]
    cases pts with
    | nil => exact absurd rfl hpts
    | cons p pts' =>
      refine Finset.card_pos.mpr ⟨classifyFrom p c0 rest, ?_⟩
      rw [List.mem_toFinset, List.map_cons]
      exact List.mem_cons_self _ _

/-- The iteration loop never increases the number of centroids. -/
theorem kmeansLoop_length_le (pts : List Point) :
    ∀ (n : Nat) (cs cs' : List Point),
      kmeansLoop pts n cs = some cs' → cs'.length ≤ cs.length := by
  intro n
  induction n with
  | zero =>
    intro cs cs' h
    simp only [kmeansLoop, Option.some.injEq] at h
    subst h
    exact le_refl _
  | succ n ih =>
    intro cs cs' h
    simp only [kmeansLoop] at h
    cases hstep : step pts cs with
    | none => rw [hstep] at h; cases h
    | some cs₁ =>
      rw [hstep] at h
      exact le_trans (ih cs₁ cs' h) (step_length_le hstep)

/-! ## Claims -/

/-- C1: `Classify` on a non-empty centroid list returns the index of the
centroid at minimum squared Euclidean distance, scanning from index 0 and
updating only on strictly smaller distances, so among equidistant minimal
centroids the lowest index wins; in particular centroids `[(0,0), (0,0)]`
and point `(1,1)` give cluster id 0. -/
theorem classify_least_argmin (p c0 : Point) (rest : List Point) :
    classify p (c0 :: rest) = some (classifyFrom p c0 rest) ∧
    (∃ hlt : classifyFrom p c0 rest < (c0 :: rest).length,
      (∀ k, ∀ hk : k < (c0 :: rest).length,
        distanceSquare p ((c0 :: rest).get ⟨classifyFrom p c0 rest, hlt⟩) ≤
          distanceSquare p ((c0 :: rest).get ⟨k, hk⟩)) ∧
      (∀ k, ∀ hk : k < classifyFrom p c0 rest,
        distanceSquare p ((c0 :: rest).get ⟨classifyFrom p c0 rest, hlt⟩) <
          distanceSquare p ((c0 :: rest).get ⟨k, Nat.lt_trans hk hlt⟩))) ∧
    classify [1, 1] [[0, 0], [0, 0]] = some 0 := by
  obtain ⟨hlt, heq, hmin, hleast⟩ := classifyFrom_spec p c0 rest
  have h1 : distanceSquare p ((c0 :: rest).get ⟨classifyFrom p c0 rest, hlt⟩) =
      computeCostFrom p c0 rest := by
    rw [heq, List.getD_eq_get _ _ hlt]
  refine ⟨rfl, ⟨hlt, ?_, ?_⟩, ?_⟩
  · intro k hk
    rw [h1, ← List.getD_eq_get _ _ hk]
    exact hmin k hk
  · intro k hk
    rw [h1, ← List.getD_eq_get _ _ (Nat.lt_trans hk hlt)]
    exact hleast k hk
  · have hirr : ¬ distanceSquare [1, 1] [0, 0] < distanceSquare [1, 1] [0, 0] :=
      lt_irrefl _
    simp [classify, classifyFrom, classifyGo, hirr]

/-- C9: on a non-empty centroid list of length `n`, `Classify` always
returns a cluster id strictly less than `n` — a valid index into the
current centroid set, hence smaller than any id in `[n, num_clusters)` when
fewer centroids than requested survive. -/
theorem classify_id_in_range (p c0 : Point) (rest : List Point) :
    classify p (c0 :: rest) = some (classifyFrom p c0 rest) ∧
    classifyFrom p c0 rest < (c0 :: rest).length :=
  ⟨rfl, (classifyFrom_spec p c0 rest).1⟩

/-- Sequencing per-point costs through `Option` on a non-empty centroid
list never fails. -/
theorem mapM_computeCost (c0 : Point) (rest : List Point) (pts : List Point) :
    (pts.mapM fun q => computeCost q (c0 :: rest)) =
      some (pts.map fun q => computeCostFrom q c0 rest) := by
  induction pts with
  | nil => rw [List.mapM_nil]; rfl
  | cons q pts ih => rw [List.mapM_cons, ih]; rfl

/-- C5: on a non-empty centroid list, `ComputeCost` of a point is the
minimum squared Euclidean distance to any centroid — the distance to the
centroid `Classify` selects — and `ComputeCost` of a collection is the sum
of the per-point costs. -/
theorem computeCost_min_dist (p c0 : Point) (rest pts : List Point) :
    computeCost p (c0 :: rest) = some (computeCostFrom p c0 rest) ∧
    (∃ hlt : classifyFrom p c0 rest < (c0 :: rest).length,
      computeCostFrom p c0 rest =
        distanceSquare p ((c0 :: rest).get ⟨classifyFrom p c0 rest, hlt⟩)) ∧
    (∀ k, ∀ hk : k < (c0 :: rest).length,
      computeCostFrom p c0 rest ≤ distanceSquare p ((c0 :: rest).get ⟨k, hk⟩)) ∧
    computeCostTotal pts (c0 :: rest) =
      some ((pts.map fun q => computeCostFrom q c0 rest).sum) := by
  obtain ⟨hlt, heq, hmin, _⟩ := classifyFrom_spec p c0 rest
  refine ⟨rfl, ⟨hlt, ?_⟩, ?_, ?_⟩
  · rw [heq, List.getD_eq_get _ _ hlt]
  · intro k hk
    rw [← List.getD_eq_get _ _ hk]
    exact hmin k hk
  · rw [computeCostTotal, mapM_computeCost]
    rfl

/-- C3: the `ReduceByKey` combine function is associative, commutative on
records sharing one cluster id, and its left fold is invariant under any
reordering of the merged records, so any pairwise merge order (pairwise,
tree, or all-at-once, including partial local pre-combination) yields the
same accumulator. -/
theorem combine_monoid :
    (∀ a b c : ClosestCentroid, combine (combine a b) c = combine a (combine b c)) ∧
    (∀ a b : ClosestCentroid, a.cluster_id = b.cluster_id → combine a b = combine b a) ∧
    (∀ (a : ClosestCentroid) (l₁ l₂ : List ClosestCentroid), l₁.Perm l₂ →
      l₁.foldl combine a = l₂.foldl combine a) := by
  refine ⟨?_, ?_, ?_⟩
  · intro a b c
    simp [combine, pointAdd_assoc, Nat.add_assoc]
  · intro a b h
    simp [combine, pointAdd_comm a.center.p b.center.p, Nat.add_comm, h]
  · intro a l₁ l₂ hperm
    haveI : RightCommutative combine := ⟨fun x y z => combine_right_comm x y z⟩
    exact hperm.foldl_eq a

/-- Witness for C3 on concrete records sharing cluster id 0. -/
theorem combine_monoid_witness :
    combine (combine ⟨0, ⟨[1], 1⟩⟩ ⟨0, ⟨[2], 1⟩⟩) ⟨0, ⟨[3], 2⟩⟩ =
      combine ⟨0, ⟨[1], 1⟩⟩ (combine ⟨0, ⟨[2], 1⟩⟩ ⟨0, ⟨[3], 2⟩⟩) ∧
    combine ⟨0, ⟨[1], 1⟩⟩ ⟨0, ⟨[2], 1⟩⟩ = combine ⟨0, ⟨[2], 1⟩⟩ ⟨0, ⟨[1], 1⟩⟩ ∧
    [(⟨0, ⟨[1], 1⟩⟩ : ClosestCentroid), ⟨0, ⟨[2], 1⟩⟩].foldl combine ⟨0, ⟨[0], 1⟩⟩ =
      [(⟨0, ⟨[2], 1⟩⟩ : ClosestCentroid), ⟨0, ⟨[1], 1⟩⟩].foldl combine ⟨0, ⟨[0], 1⟩⟩ :=
  ⟨combine_monoid.1 _ _ _, combine_monoid.2.1 _ _ rfl,
   combine_monoid.2.2 _ _ _ (List.Perm.swap _ _ _)⟩

/-- C4: classifying or computing the cost of a point against an empty
centroid list fails (the fallible `centroids_[0]` access is `none`), never
silently returning an index or a value. -/
theorem empty_centroids_fail (p : Point) (m : KMeansModel)
    (hm : m.centroids = []) :
    classify p [] = none ∧ computeCost p [] = none ∧
    m.classifyM p = none ∧ m.computeCostM p = none := by
  refine ⟨rfl, rfl, ?_, ?_⟩ <;>
    simp [KMeansModel.classifyM, KMeansModel.computeCostM, hm, classify, computeCost]

/-- Witness for C4 at a concrete point and model. -/
theorem empty_centroids_fail_witness :
    classify [1, 2] [] = none ∧ computeCost [1, 2] [] = none ∧
    (KMeansModel.mk 2 3 1 []).classifyM [1, 2] = none ∧
    (KMeansModel.mk 2 3 1 []).computeCostM [1, 2] = none :=
  empty_centroids_fail [1, 2] (KMeansModel.mk 2 3 1 []) rfl

/-- C10: with `iterations = 0` the loop body never runs — no assignment, no
aggregation — and the returned model's centroids are exactly the initial
sample, in the order `Sample`/`AllGather` delivered it. -/
theorem kmeans_zero_iterations (pts sample : List Point) (d k : Nat) :
    kMeans pts d k 0 sample =
      some { dimensions := d, num_clusters := k, iterations := 0,
             centroids := sample } := rfl

/-- Folding `combine` over assignment records keeps the accumulator's
cluster id, sums the points and adds the (unit) counts. -/
theorem foldl_combine_acc (c0 : Point) (rest : List Point) :
    ∀ (qs : List Point) (a : ClosestCentroid),
      (qs.map (assignPoint c0 rest)).foldl combine a =
        { cluster_id := a.cluster_id
          center := { p := qs.foldl pointAdd a.center.p
                      count := a.center.count + qs.length } } := by
  intro qs
  induction qs with
  | nil =>
    intro a
    cases a with
    | mk cid ctr => cases ctr; rfl
  | cons x qs ih =>
    intro a
    rw [List.map_cons, List.foldl_cons, ih, List.foldl_cons]
    simp [combine, assignPoint]
    omega

/-- Merging the assignment records of the points `q :: qs` yields the sum
of the points with the count `qs.length + 1`. -/
theorem foldl_combine_seeds (c0 : Point) (rest qs : List Point) (q : Point) :
    (qs.map (assignPoint c0 rest)).foldl combine (assignPoint c0 rest q) =
      { cluster_id := classifyFrom q c0 rest
        center := { p := qs.foldl pointAdd q, count := qs.length + 1 } } := by
  rw [foldl_combine_acc]
  simp [assignPoint, Nat.add_comm]

/-- C2: the assignment step emits exactly one `ClosestCentroid` per input
point with `center = {the point, count 1}`, and after aggregation and
recomputation the new centroid of every cluster id that received at least
one point is the arithmetic mean (component-wise `point_sum / count`) of
exactly the points assigned to it. -/
theorem assignment_and_mean (pts : List Point) (c0 : Point) (rest : List Point) :
    assign c0 rest pts = (pts.map fun p =>
      { cluster_id := classifyFrom p c0 rest
        center := { p := p, count := 1 } }) ∧
    step pts (c0 :: rest) =
      some ((reduceByKey (assign c0 rest pts)).map extractMean) ∧
    (∀ k, (∃ p ∈ pts, classifyFrom p c0 rest = k) →
      ∃ cc ∈ reduceByKey (assign c0 rest pts), cc.cluster_id = k) ∧
    (∀ cc ∈ reduceByKey (assign c0 rest pts),
      cc.center.count =
        (pts.filter fun p => classifyFrom p c0 rest == cc.cluster_id).length ∧
      extractMean cc =
        specMean (pts.filter fun p => classifyFrom p c0 rest == cc.cluster_id)) := by
  refine ⟨rfl, rfl, ?_, ?_⟩
  · intro k hk
    obtain ⟨p, hp, hpk⟩ := hk
    apply reduceByKey_mem_intro
    rw [assign_ids]
    exact List.mem_map.mpr ⟨p, hp, hpk⟩
  · intro cc hcc
    obtain ⟨k, r, rs, hfil, hcceq, _, hcck⟩ := reduceByKey_mem_elim hcc
    subst hcck
    rw [filter_assign] at hfil
    cases hAe : pts.filter fun p => classifyFrom p c0 rest == cc.cluster_id with
    | nil =>
      rw [hAe, List.map_nil] at hfil
      cases hfil
    | cons q qs =>
      rw [hAe, List.map_cons] at hfil
      injection hfil with h1 h2
      rw [hcceq, ← h1, ← h2, foldl_combine_seeds]
      exact ⟨rfl, rfl⟩

/-- Witness for C2: two points, one centroid; the single accumulator has
count 2 and its extracted centroid is the mean of both points. -/
theorem assignment_and_mean_witness :
    (∃ cc ∈ reduceByKey (assign [0] [] [[0], [0]]), cc.cluster_id = 0) ∧
    (ClosestCentroid.mk 0 ⟨[0], 2⟩).center.count =
      (([[0], [0]] : List Point).filter fun p =>
        classifyFrom p [0] [] == (ClosestCentroid.mk 0 ⟨[0], 2⟩).cluster_id).length ∧
    extractMean (ClosestCentroid.mk 0 ⟨[0], 2⟩) =
      specMean (([[0], [0]] : List Point).filter fun p =>
        classifyFrom p [0] [] == (ClosestCentroid.mk 0 ⟨[0], 2⟩).cluster_id) := by
  refine ⟨(assignment_and_mean [[0], [0]] [0] []).2.2.1 0 ⟨[0], by simp, rfl⟩,
    (assignment_and_mean [[0], [0]] [0] []).2.2.2 (ClosestCentroid.mk 0 ⟨[0], 2⟩) ?_⟩
  simp [reduceByKey, assign, assignPoint, classifyFrom, classifyGo, combine,
    pointAdd]

/-- C6: after an iteration the next centroid set has exactly one centroid
per distinct cluster id that received at least one assigned point; every
output id received a point and every id that received a point appears, so
ids with zero points vanish with no reseeding, and the number of centroids
never increases across iterations. -/
theorem surviving_cluster_ids (pts : List Point) (c0 : Point) (rest : List Point) :
    (∃ newCs, step pts (c0 :: rest) = some newCs ∧
      newCs.length = (pts.map fun p => classifyFrom p c0 rest).toFinset.card ∧
      newCs.length ≤ (c0 :: rest).length) ∧
    (∀ cc ∈ reduceByKey (assign c0 rest pts),
      ∃ p ∈ pts, classifyFrom p c0 rest = cc.cluster_id) ∧
    (∀ k, (∃ p ∈ pts, classifyFrom p c0 rest = k) →
      ∃ cc ∈ reduceByKey (assign c0 rest pts), cc.cluster_id = k) ∧
    (∀ (n : Nat) (cs cs' : List Point),
      kmeansLoop pts n cs = some cs' → cs'.length ≤ cs.length) := by
  refine ⟨⟨(reduceByKey (assign c0 rest pts)).map extractMean, rfl, ?_, ?_⟩,
    ?_, ?_, kmeansLoop_length_le pts⟩
  · rw [List.length_map, reduceByKey_length, assign_ids]
  · rw [List.length_map, reduceByKey_length, assign_ids]
    exact assign_ids_card_le c0 rest pts
  · intro cc hcc
    obtain ⟨k, r, rs, hfil, _, hr, hcck⟩ := reduceByKey_mem_elim hcc
    have hrmem : r ∈ assign c0 rest pts := by
      have hf : r ∈ (assign c0 rest pts).filter fun x => x.cluster_id == k := by
        rw [hfil]
        exact List.mem_cons_self r rs
      exact (List.mem_filter.mp hf).1
    unfold assign at hrmem
    obtain ⟨p, hp, hpr⟩ := List.mem_map.mp hrmem
    refine ⟨p, hp, ?_⟩
    rw [hcck, ← hr, ← hpr]
    rfl
  · intro k hk
    obtain ⟨p, hp, hpk⟩ := hk
    apply reduceByKey_mem_intro
    rw [assign_ids]
    exact List.mem_map.mpr ⟨p, hp, hpk⟩

/-- Witness for C6 on one point and one centroid: one iteration of the loop
keeps the centroid count at one, and cluster id 0 (which received the
point) has an accumulator. -/
theorem surviving_cluster_ids_witness :
    ([[0]] : List Point).length ≤ ([[0]] : List Point).length ∧
    (∃ cc ∈ reduceByKey (assign [0] [] [[0]]), cc.cluster_id = 0) := by
  constructor
  · refine (surviving_cluster_ids [[0]] [0] []).2.2.2 1 [[0]] [[0]] ?_
    simp [kmeansLoop, step, assign, assignPoint, classifyFrom, classifyGo,
      reduceByKey, extractMean, pointDiv, combine, pointAdd]
  · exact (surviving_cluster_ids [[0]] [0] []).2.2.1 0 ⟨[0], by simp, rfl⟩

/-- C7: the loop is exactly the `iterations`-fold application of the step —
no convergence test, no early exit — and for nonempty points and initial
centroids it completes normally for every finite iteration count,
including 0, with the count as sole termination condition. -/
theorem kmeans_fixed_iteration_count :
    (∀ (pts cs : List Point) (n : Nat),
      kmeansLoop pts n cs = (fun o => o.bind (step pts))^[n] (some cs)) ∧
    (∀ (pts cs : List Point) (n : Nat), pts ≠ [] → cs ≠ [] →
      ∃ cs', kmeansLoop pts n cs = some cs' ∧ cs' ≠ []) := by
  have hnone : ∀ (pts : List Point) (n : Nat),
      (fun o => o.bind (step pts))^[n] none = none := by
    intro pts n
    induction n with
    | zero => rfl
    | succ n ih => rw [Function.iterate_succ_apply]; exact ih
  constructor
  · intro pts cs n
    induction n generalizing cs with
    | zero => rfl
    | succ n ih =>
      have h1 : (fun o => o.bind (step pts))^[n + 1] (some cs) =
          (fun o => o.bind (step pts))^[n] (step pts cs) := by
        rw [Function.iterate_succ_apply]
        exact rfl
      rw [h1]
      simp only [kmeansLoop]
      cases step pts cs with
      | none => exact (hnone pts n).symm
      | some cs₁ => exact ih cs₁
  · intro pts cs n
    induction n generalizing cs with
    | zero =>
      intro _ hcs
      exact ⟨cs, rfl, hcs⟩
    | succ n ih =>
      intro hpts hcs
      obtain ⟨cs₁, hstep, hne⟩ := step_nonempty hpts hcs
      obtain ⟨cs', hloop, hne'⟩ := ih cs₁ hpts hne
      refine ⟨cs', ?_, hne'⟩
      simp only [kmeansLoop]
      rw [hstep]
      exact hloop

/-- Witness for C7: two iterations on one point and one centroid. -/
theorem kmeans_fixed_iteration_count_witness :
    kmeansLoop [[0]] 2 [[0]] = (fun o => o.bind (step [[0]]))^[2] (some [[0]]) ∧
    ∃ cs', kmeansLoop [[0]] 2 [[0]] = some cs' ∧ cs' ≠ [] :=
  ⟨kmeans_fixed_iteration_count.1 [[0]] [[0]] 2,
   kmeans_fixed_iteration_count.2 [[0]] [[0]] 2 (by simp) (by simp)⟩

/-- C8: the model returned by `KMeans` records `dimensions`, `num_clusters`
and `iterations` exactly as requested — `num_clusters` as originally
requested regardless of how many centroids survived — its centroids
accessor returns the final centroid set of the loop, and every
classification/cost method is a pure function of the stored (immutable)
fields, leaving them unchanged. -/
theorem model_records_request (pts sample : List Point) (d k n : Nat)
    (m : KMeansModel) (h : kMeans pts d k n sample = some m) :
    m.dimensions = d ∧ m.num_clusters = k ∧ m.iterations = n ∧
    kmeansLoop pts n sample = some m.centroids ∧
    (∀ p, m.classifyM p = classify p m.centroids) ∧
    (∀ p, m.computeCostM p = computeCost p m.centroids) ∧
    (∀ ps, m.computeCostTotalM ps = computeCostTotal ps m.centroids) ∧
    (∀ ps, m.classifyPairsM ps =
      ps.mapM fun p => (classify p m.centroids).map fun i => (p, i)) := by
  unfold kMeans at h
  cases hloop : kmeansLoop pts n sample with
  | none => rw [hloop] at h; cases h
  | some cs =>
    rw [hloop] at h
    have hm : m = ⟨d, k, n, cs⟩ := (Option.some.inj h).symm
    subst hm
    exact ⟨rfl, rfl, rfl, rfl, fun _ => rfl, fun _ => rfl, fun _ => rfl,
      fun _ => rfl⟩

/-- Witness for C8: a run requesting 3 clusters over a 1-element sample
records 3 even though only one centroid exists. -/
theorem model_records_request_witness :
    (KMeansModel.mk 2 3 0 [[5]]).dimensions = 2 ∧
    (KMeansModel.mk 2 3 0 [[5]]).num_clusters = 3 ∧
    (KMeansModel.mk 2 3 0 [[5]]).iterations = 0 ∧
    kmeansLoop [[1]] 0 [[5]] = some (KMeansModel.mk 2 3 0 [[5]]).centroids ∧
    (∀ p, (KMeansModel.mk 2 3 0 [[5]]).classifyM p =
      classify p (KMeansModel.mk 2 3 0 [[5]]).centroids) ∧
    (∀ p, (KMeansModel.mk 2 3 0 [[5]]).computeCostM p =
      computeCost p (KMeansModel.mk 2 3 0 [[5]]).centroids) ∧
    (∀ ps, (KMeansModel.mk 2 3 0 [[5]]).computeCostTotalM ps =
      computeCostTotal ps (KMeansModel.mk 2 3 0 [[5]]).centroids) ∧
    (∀ ps, (KMeansModel.mk 2 3 0 [[5]]).classifyPairsM ps =
      ps.mapM fun p =>
        (classify p (KMeansModel.mk 2 3 0 [[5]]).centroids).map fun i => (p, i)) :=
  model_records_request [[1]] [[5]] 2 3 0 (KMeansModel.mk 2 3 0 [[5]]) rfl

end KMeansVerify
